import Mathlib

/-!
Verification of the `esal` event data model (`esal/events.py`): the `Header`
name/index mapping and the `Event` record with its partial-match predicate and
sort key.  Python values relevant to the claims are embedded as an inductive
`Value` type; Python truthiness and the value-returning `and`/`or` operators
are embedded explicitly, since `matches` returns the raw result of an
`and`-chain.  Callables are represented by an identity tag (Python default
object equality on functions is identity) together with the function itself.
-/

namespace Esal

/-- Embedding of the Python values the claims range over: `None`, booleans,
integers, strings, and callable objects.  A callable field value is
represented by its identity tag alone; the behaviour of a callable only
matters when it is supplied as a match criterion, where `ValuePred.callable`
carries the function.  (The `Any` wildcard sentinel is a module-level object
that is only ever supplied as a criterion, so it lives in `ValuePred`, not in
`Value`.) -/
inductive Value where
  | none
  | bool (b : Bool)
  | int (n : Int)
  | str (s : String)
  | callable (id : Nat)
deriving DecidableEq, Repr

/-- Python `==` on the embedded values.  Python booleans are integers, so
`True == 1` and `False == 0`; functions compare by identity; values of
unrelated types compare unequal. -/
def pyEq : Value → Value → Bool
  | .none, .none => true
  | .bool a, .bool b => a == b
  | .bool a, .int n => (if a then (1 : Int) else 0) == n
  | .int n, .bool a => n == (if a then (1 : Int) else 0)
  | .int a, .int b => a == b
  | .str a, .str b => a == b
  | .callable i, .callable j => i == j
  | _, _ => false

/-- Python truthiness of the embedded values. -/
def truthy : Value → Bool
  | .none => false
  | .bool b => b
  | .int n => n != 0
  | .str s => s.length != 0
  | .callable _ => true

/-- Python `or`: returns the first operand if it is truthy, else the second. -/
def pyOr (a b : Value) : Value := if truthy a then a else b

/-- Python `and`: returns the first operand if it is falsy, else the second. -/
def pyAnd (a b : Value) : Value := if truthy a then b else a

/-- A value supplied as a match criterion: the `Any` wildcard sentinel, a
plain (non-callable) value, or a callable with its identity tag.  A Python
callable criterion is always represented by the `callable` case; the `val`
case stands for non-callable objects only. -/
inductive ValuePred where
  | any
  | val (v : Value)
  | callable (id : Nat) (f : Value → Value)

/-- The test `valuepred is Any`. -/
def ValuePred.isAny : ValuePred → Bool
  | .any => true
  | _ => false

/-- The test `callable(valuepred)`. -/
def ValuePred.isCallable : ValuePred → Bool
  | .callable _ _ => true
  | _ => false

/-- Python `valuepred == value`: the `Any` sentinel is a plain object equal
only to itself (and it is not a `Value`); a plain criterion compares by
`pyEq`; a callable compares by identity. -/
def predEqVal : ValuePred → Value → Bool
  | .any, _ => false
  | .val w, v => pyEq w v
  | .callable i _, .callable j => i == j
  | .callable _ _, _ => false

/-- The call `valuepred(value)`; only reached under `callable(valuepred)`,
so the non-callable result is irrelevant (Python `and` never evaluates it). -/
def applyPred : ValuePred → Value → Value
  | .callable _ f, v => f v
  | _, _ => .none

/-- `_valuepred_matches_value(valuepred, value)`: the Python expression
`valuepred is Any or valuepred == value or (callable(valuepred) and
valuepred(value))`, with `or`/`and` returning operand values. -/
def valuepred_matches_value (valuepred : ValuePred) (value : Value) : Value :=
  pyOr (pyOr (Value.bool valuepred.isAny) (Value.bool (predEqVal valuepred value)))
    (pyAnd (Value.bool valuepred.isCallable) (applyPred valuepred value))

/-- The `Event` record: the 5-tuple `(seq, time, dura, ev, val)`. -/
structure Event where
  seq : Value
  time : Value
  dura : Value
  ev : Value
  val : Value
deriving DecidableEq, Repr

/-- The underlying 5-tuple of an `Event`, in field order. -/
def Event.toList (e : Event) : List Value := [e.seq, e.time, e.dura, e.ev, e.val]

/-- `Event.matches(seq, time, dura, ev, val)`: the Python `and`-chain over the
five `_valuepred_matches_value` results, evaluated in the source order
`ev, time, val, dura, seq` and returning the raw chain value. -/
def Event.matches (e : Event) (seq time dura ev val : ValuePred) : Value :=
  pyAnd (pyAnd (pyAnd (pyAnd
    (valuepred_matches_value ev e.ev)
    (valuepred_matches_value time e.time))
    (valuepred_matches_value val e.val))
    (valuepred_matches_value dura e.dura))
    (valuepred_matches_value seq e.seq)

/-- Error kinds raised by key access: Python `IndexError` and `KeyError`. -/
inductive Err where
  | indexError
  | keyError
deriving DecidableEq, Repr

/-- A key passed to `__getitem__`: an integer, a string, or a value of any
other type (slices are not modelled; no claim involves them). -/
inductive Key where
  | int (i : Int)
  | str (s : String)
  | other
deriving DecidableEq, Repr

/-- Lookup in the Python dict modelled as an association list. -/
def dictGet (d : List (String × Nat)) (k : String) : Option Nat :=
  match d with
  | [] => Option.none
  | (k₂, v) :: rest => if k₂ = k then some v else dictGet rest k

/-- Insertion into the Python dict: replaces the binding of an existing key,
otherwise appends a fresh binding. -/
def dictSet (d : List (String × Nat)) (k : String) (v : Nat) : List (String × Nat) :=
  match d with
  | [] => [(k, v)]
  | (k₂, v₂) :: rest => if k₂ = k then (k, v) :: rest else (k₂, v₂) :: dictSet rest k v

/-- Python `enumerate` starting at `i`. -/
def enumFrom (i : Nat) : List String → List (Nat × String)
  | [] => []
  | x :: xs => (i, x) :: enumFrom (i + 1) xs

/-- The dict built by `dict((name, index) for index, name in enumerate(names))`:
later bindings of a repeated name overwrite earlier ones. -/
def mkDict (names : List String) : List (String × Nat) :=
  (enumFrom 0 names).foldl (fun d p => dictSet d p.2 p.1) []

/-- `Header`: the tuple of names and the derived name-to-index dict. -/
structure Header where
  idxs_to_names : List String
  names_to_idxs : List (String × Nat)

/-- `Header.__init__(names)`. -/
def Header.ofNames (names : List String) : Header :=
  ⟨names, mkDict names⟩

/-- `Header.__len__`. -/
def Header.len (h : Header) : Nat := h.idxs_to_names.length

/-- Python tuple indexing `t[i]`: a negative index counts from the end;
`IndexError` outside `[-len, len)`. -/
def pyTupleGet {α : Type} (l : List α) (i : Int) : Except Err α :=
  let j : Int := if i < 0 then i + l.length else i
  if j < 0 then .error .indexError
  else
    match l.get? j.toNat with
    | some x => .ok x
    | Option.none => .error .indexError

/-- `Header.__getitem__(key)` (the `resolve` operation of the spec): an
integer key is validated against `0 <= key < len` and returned; a string key
is looked up in the dict, `KeyError` if absent; any other key type raises
`KeyError`. -/
def Header.getitem (h : Header) : Key → Except Err Int
  | .int k =>
      if k < 0 ∨ k ≥ (h.idxs_to_names.length : Int) then .error .indexError
      else .ok k
  | .str s =>
      match dictGet h.names_to_idxs s with
      | some i => .ok (i : Int)
      | Option.none => .error .keyError
  | .other => .error .keyError

/-- `Header.name_of(index)`: raw tuple indexing `self.idxs_to_names[index]`. -/
def Header.name_of (h : Header) (index : Int) : Except Err String :=
  pyTupleGet h.idxs_to_names index

/-- `Header.index_of(name)`: dict lookup `self.names_to_idxs[name]`,
`KeyError` if absent. -/
def Header.index_of (h : Header) (name : String) : Except Err Nat :=
  match dictGet h.names_to_idxs name with
  | some i => .ok i
  | Option.none => .error .keyError

/-- `_EVENT_FIELD_NAMES`. -/
def _EVENT_FIELD_NAMES : List String := ["seq", "time", "dura", "ev", "val"]

/-- `Event._header`: the shared header of every `Event`. -/
def Event.header : Header := Header.ofNames _EVENT_FIELD_NAMES

/-- `Event.__getitem__(key)`: integer keys use native tuple access on the
5-tuple; a string key is resolved through the shared header and then accessed
positionally (the recursive call `self[index]` is inlined, the index being an
integer); any other key raises `KeyError`. -/
def Event.getitem (e : Event) : Key → Except Err Value
  | .int i => pyTupleGet e.toList i
  | .str s =>
      match Event.header.index_of s with
      | .ok i => pyTupleGet e.toList (i : Int)
      | .error err => .error err
  | .other => .error .keyError

/-- Attribute access `e.seq`, `e.time`, `e.dura`, `e.ev`, `e.val` generated
by `namedtuple`; `none` stands for the `AttributeError` of a missing name. -/
def Event.attribute (e : Event) : String → Option Value
  | "seq" => some e.seq
  | "time" => some e.time
  | "dura" => some e.dura
  | "ev" => some e.ev
  | "val" => some e.val
  | _ => Option.none

/-- Comparison in a linear order as an `Ordering`. -/
def cmpLin {α : Type} [LinearOrder α] (a b : α) : Ordering :=
  if a < b then .lt else if b < a then .gt else .eq

/-- Modelled from the spec: the type rank of the per-value canonicalization of
`general.iterable_sort_key`, whose source is not under `src/`.  The spec asks
for a canonicalization that makes heterogeneous and absent values mutually
orderable, with absent values sorting consistently relative to present ones;
here absent (`None`) sorts first and each type occupies its own rank. -/
def valueRank : Value → Nat
  | .none => 0
  | .bool _ => 1
  | .int _ => 2
  | .str _ => 3
  | .callable _ => 4

/-- Modelled from the spec: the integer payload of the canonicalization,
decisive within the `bool`, `int` and `callable` ranks. -/
def valueIntKey : Value → Int
  | .bool b => cond b 1 0
  | .int n => n
  | .callable i => (i : Int)
  | _ => 0

/-- Modelled from the spec: the string payload of the canonicalization,
decisive within the `str` rank. -/
def valueStrKey : Value → String
  | .str s => s
  | _ => ""

/-- Lexicographic comparison of character lists by code point. -/
def charListCmp : List Char → List Char → Ordering
  | [], [] => .eq
  | [], _ :: _ => .lt
  | _ :: _, [] => .gt
  | a :: as, b :: bs => (cmpLin a b).then (charListCmp as bs)

/-- Lexicographic comparison of strings by code point. -/
def strCmp (a b : String) : Ordering := charListCmp a.data b.data

/-- Modelled from the spec: comparison of two canonicalized values — by type
rank, then by the payload within the rank. -/
def valueCmp (a b : Value) : Ordering :=
  (cmpLin (valueRank a) (valueRank b)).then
    ((cmpLin (valueIntKey a) (valueIntKey b)).then
      (strCmp (valueStrKey a) (valueStrKey b)))

/-- Modelled from the spec: `Event.sort_key` comparison — lexicographic over
the canonicalized field values in field order `seq, time, dura, ev, val`. -/
def Event.sort_key_cmp (a b : Event) : Ordering :=
  (valueCmp a.seq b.seq).then
    ((valueCmp a.time b.time).then
      ((valueCmp a.dura b.dura).then
        ((valueCmp a.ev b.ev).then (valueCmp a.val b.val))))

/-- Key order `sort_key(a) <= sort_key(b)`. -/
def eventLe (a b : Event) : Bool := !(Event.sort_key_cmp a b == Ordering.gt)

/-- Stable insertion of an event into a key-sorted list. -/
def orderedInsertEvent (a : Event) : List Event → List Event
  | [] => [a]
  | b :: l => if eventLe a b then a :: b :: l else b :: orderedInsertEvent a l

/-- Sorting a list of events by their sort keys (ascending, stable). -/
def sortEvents : List Event → List Event
  | [] => []
  | b :: l => orderedInsertEvent b (sortEvents l)

/-- The index of the last occurrence of `k` in `l`, if any. -/
def lastIdx : List String → String → Option Nat
  | [], _ => Option.none
  | x :: xs, k =>
    match lastIdx xs k with
    | some j => some (j + 1)
    | Option.none => if x = k then some 0 else Option.none

/-- Whether a callable criterion returns only booleans (trivially true for
the other criterion kinds). -/
def ValuePred.boolValued : ValuePred → Prop
  | .callable _ f => ∀ v, ∃ b, f v = Value.bool b
  | _ => True

/-- Whether a plain-value criterion really is a non-callable value, as the
`val` case is meant to represent (a callable supplied as a criterion is
represented by the `callable` case). -/
def ValuePred.plainOk : ValuePred → Prop
  | .val (Value.callable _) => False
  | _ => True

/-- Criterion satisfaction as the code computes it: a wildcard always, a
plain value by `pyEq`, a callable by identity with the field value or by a
truthy application result. -/
def criterionSatisfied : ValuePred → Value → Bool
  | .any, _ => true
  | .val w, v => pyEq w v
  | .callable i f, v => predEqVal (.callable i f) v || truthy (f v)

/-- Criterion satisfaction as the claim words it: a wildcard always, a plain
value by value equality, and a predicate criterion satisfied exactly when
invoking it on the field value returns `True`. -/
def specSatisfied : ValuePred → Value → Bool
  | .any, _ => true
  | .val w, v => pyEq w v
  | .callable _ f, v => f v == Value.bool true

/-- A predicate criterion used in witnesses: true on integers above 100. -/
def gt100 : Value → Value :=
  fun v => Value.bool (match v with | .int n => decide (100 < n) | _ => false)

theorem cmpLin_eq_iff {α : Type} [LinearOrder α] (a b : α) :
    cmpLin a b = .eq ↔ a = b := by
  unfold cmpLin
  rcases lt_trichotomy a b with h | h | h
  · simp [h, h.ne]
  · simp [h, lt_irrefl]
  · simp [h, h.ne.symm, not_lt_of_gt h]

theorem cmpLin_swap {α : Type} [LinearOrder α] (a b : α) :
    cmpLin b a = (cmpLin a b).swap := by
  unfold cmpLin
  rcases lt_trichotomy a b with h | h | h
  · simp [h, not_lt_of_gt h, Ordering.swap]
  · simp [h, lt_irrefl, Ordering.swap]
  · simp [h, not_lt_of_gt h, Ordering.swap]

theorem ordThen_swap (o p : Ordering) : (o.then p).swap = o.swap.then p.swap := by
  cases o <;> rfl

theorem ordThen_eq_eq (o p : Ordering) :
    o.then p = .eq ↔ o = .eq ∧ p = .eq := by
  cases o <;> simp [Ordering.then]

theorem charListCmp_swap :
    ∀ as bs : List Char, charListCmp bs as = (charListCmp as bs).swap
  | [], [] => rfl
  | [], _ :: _ => rfl
  | _ :: _, [] => rfl
  | a :: as, b :: bs => by
      show (cmpLin b a).then (charListCmp bs as) =
        ((cmpLin a b).then (charListCmp as bs)).swap
      rw [ordThen_swap, cmpLin_swap a b, charListCmp_swap as bs]

theorem charListCmp_eq_iff :
    ∀ as bs : List Char, charListCmp as bs = .eq ↔ as = bs
  | [], [] => by simp [charListCmp]
  | [], _ :: _ => by simp [charListCmp]
  | _ :: _, [] => by simp [charListCmp]
  | a :: as, b :: bs => by
      show (cmpLin a b).then (charListCmp as bs) = .eq ↔ _
      rw [ordThen_eq_eq, cmpLin_eq_iff, charListCmp_eq_iff as bs]
      simp

theorem strCmp_swap (a b : String) : strCmp b a = (strCmp a b).swap :=
  charListCmp_swap a.data b.data

theorem strCmp_eq_iff (a b : String) : strCmp a b = .eq ↔ a = b := by
  unfold strCmp
  rw [charListCmp_eq_iff]
  constructor
  · intro h
    cases a; cases b; simp_all
  · intro h
    rw [h]

theorem valueCmp_swap (a b : Value) : valueCmp b a = (valueCmp a b).swap := by
  unfold valueCmp
  rw [cmpLin_swap (valueRank a), cmpLin_swap (valueIntKey a),
    strCmp_swap (valueStrKey a), ordThen_swap, ordThen_swap]

theorem valueCmp_eq_iff (a b : Value) : valueCmp a b = .eq ↔ a = b := by
  unfold valueCmp
  rw [ordThen_eq_eq, ordThen_eq_eq, cmpLin_eq_iff, cmpLin_eq_iff, strCmp_eq_iff]
  cases a <;> cases b <;>
    (simp [valueRank, valueIntKey, valueStrKey];
     try (rename_i x y; cases x <;> cases y <;> simp))

theorem sort_key_cmp_swap (a b : Event) :
    Event.sort_key_cmp b a = (Event.sort_key_cmp a b).swap := by
  unfold Event.sort_key_cmp
  rw [valueCmp_swap a.seq, valueCmp_swap a.time, valueCmp_swap a.dura,
    valueCmp_swap a.ev, valueCmp_swap a.val, ordThen_swap, ordThen_swap,
    ordThen_swap, ordThen_swap]

theorem sort_key_cmp_eq_iff (a b : Event) :
    Event.sort_key_cmp a b = .eq ↔ a = b := by
  unfold Event.sort_key_cmp
  rw [ordThen_eq_eq, ordThen_eq_eq, ordThen_eq_eq, ordThen_eq_eq,
    valueCmp_eq_iff, valueCmp_eq_iff, valueCmp_eq_iff, valueCmp_eq_iff,
    valueCmp_eq_iff]
  cases a; cases b; simp [Event.mk.injEq]

theorem dictGet_dictSet (d : List (String × Nat)) (k k₂ : String) (v : Nat) :
    dictGet (dictSet d k v) k₂ = if k₂ = k then some v else dictGet d k₂ := by
  induction d with
  | nil =>
      by_cases h : k₂ = k
      · subst h; simp [dictSet, dictGet]
      · simp [dictSet, dictGet, h, Ne.symm h]
  | cons p rest ih =>
      obtain ⟨k₃, v₃⟩ := p
      by_cases h₃ : k₃ = k
      · subst h₃
        by_cases h : k₂ = k₃
        · subst h; simp [dictSet, dictGet]
        · simp [dictSet, dictGet, h, Ne.symm h]
      · by_cases h : k₂ = k₃
        · subst h
          simp [dictSet, dictGet, h₃]
        · simp [dictSet, dictGet, h₃, Ne.symm h, h, ih]

theorem dictGet_foldl (l : List String) (i : Nat) (d : List (String × Nat))
    (k : String) :
    dictGet ((enumFrom i l).foldl (fun d p => dictSet d p.2 p.1) d) k =
      match lastIdx l k with
      | some j => some (i + j)
      | Option.none => dictGet d k := by
  induction l generalizing i d with
  | nil => simp [enumFrom, lastIdx]
  | cons x xs ih =>
      simp only [enumFrom, List.foldl_cons]
      rw [ih]
      cases h : lastIdx xs k with
      | some j => simp [lastIdx, h, Nat.add_assoc, Nat.add_comm 1 j]
      | none =>
          simp only [lastIdx, h, dictGet_dictSet]
          by_cases hx : k = x
          · simp [hx]
          · simp [hx, Ne.symm hx]

theorem mkDict_get (l : List String) (k : String) :
    dictGet (mkDict l) k = lastIdx l k := by
  unfold mkDict
  rw [dictGet_foldl]
  cases h : lastIdx l k <;> simp [dictGet]

theorem lastIdx_get (l : List String) (k : String) (i : Nat)
    (h : lastIdx l k = some i) : l.get? i = some k := by
  induction l generalizing i with
  | nil => simp [lastIdx] at h
  | cons x xs ih =>
      unfold lastIdx at h
      cases hx : lastIdx xs k with
      | some j =>
          rw [hx] at h
          obtain rfl : j + 1 = i := Option.some.inj h
          simpa using ih j hx
      | none =>
          rw [hx] at h
          by_cases hk : x = k
          · simp [hk] at h
            obtain rfl : 0 = i := h.symm ▸ rfl
            simp [hk]
          · simp [hk] at h

theorem lastIdx_none_mem (l : List String) (k : String)
    (h : lastIdx l k = Option.none) : ∀ j, l.get? j ≠ some k := by
  induction l with
  | nil => intro j; simp
  | cons x xs ih =>
      intro j
      unfold lastIdx at h
      cases hx : lastIdx xs k with
      | some m => rw [hx] at h; cases h
      | none =>
          rw [hx] at h
          by_cases hk : x = k
          · simp [hk] at h
          · cases j with
            | zero => simp [hk]
            | succ j₂ => simpa using ih hx j₂

theorem lastIdx_maximal (l : List String) (k : String) (i : Nat)
    (h : lastIdx l k = some i) :
    ∀ j, l.get? j = some k → j ≤ i := by
  induction l generalizing i with
  | nil => intro j hj; simp at hj
  | cons x xs ih =>
      intro j hj
      unfold lastIdx at h
      cases hx : lastIdx xs k with
      | some m =>
          rw [hx] at h
          obtain rfl : m + 1 = i := Option.some.inj h
          cases j with
          | zero => exact Nat.zero_le _
          | succ j₂ =>
              simp only [List.get?_cons_succ] at hj
              exact Nat.succ_le_succ (ih m hx j₂ hj)
      | none =>
          rw [hx] at h
          cases j with
          | zero => exact Nat.zero_le _
          | succ j₂ =>
              simp only [List.get?_cons_succ] at hj
              exact absurd hj (lastIdx_none_mem xs k hx j₂)

theorem lastIdx_mem (l : List String) (k : String) (h : k ∈ l) :
    ∃ i, lastIdx l k = some i := by
  cases hx : lastIdx l k with
  | some i => exact ⟨i, rfl⟩
  | none =>
      obtain ⟨n, hn⟩ := List.mem_iff_get?.mp h
      exact absurd hn (lastIdx_none_mem l k hx n)

theorem lastIdx_nodup (l : List String) (k : String) (i : Nat)
    (hnd : l.Nodup) (h : l.get? i = some k) : lastIdx l k = some i := by
  obtain ⟨j, hj⟩ := lastIdx_mem l k (List.get?_mem h)
  have hgj : l.get? j = some k := lastIdx_get l k j hj
  have hi : i < l.length := by
    by_contra hge
    rw [List.get?_eq_none.mpr (Nat.le_of_not_lt hge)] at h
    cases h
  have hij : i = j := by
    apply List.getElem?_inj hi hnd
    rw [← List.get?_eq_getElem?, ← List.get?_eq_getElem?, h, hgj]
  rw [hij]; exact hj

theorem pyAnd_bool (x y : Bool) : pyAnd (.bool x) (.bool y) = .bool (x && y) := by
  cases x <;> rfl

theorem truthy_pyAnd (a b : Value) : truthy (pyAnd a b) = (truthy a && truthy b) := by
  unfold pyAnd
  cases h : truthy a <;> simp [h]

/-- Normal form of `_valuepred_matches_value`: the wildcard test first, then
the equality test, and only then — and only for a callable — the invocation,
whose raw result is returned. -/
theorem valuepred_matches_value_eq (c : ValuePred) (v : Value) :
    valuepred_matches_value c v =
      if c.isAny then .bool true
      else if predEqVal c v then .bool true
      else if c.isCallable then applyPred c v
      else .bool false := by
  cases c with
  | any => rfl
  | val w =>
      show pyOr (pyOr (Value.bool false) (Value.bool (pyEq w v)))
        (pyAnd (Value.bool false) (applyPred (.val w) v)) = _
      cases h : pyEq w v <;>
        simp [pyOr, pyAnd, truthy, ValuePred.isAny, ValuePred.isCallable,
          predEqVal, h]
  | callable i f =>
      show pyOr (pyOr (Value.bool false) (Value.bool (predEqVal (.callable i f) v)))
        (pyAnd (Value.bool true) (applyPred (.callable i f) v)) = _
      cases h : predEqVal (.callable i f) v <;>
        simp [pyOr, pyAnd, truthy, ValuePred.isAny, ValuePred.isCallable,
          applyPred, h]

/-- Truthiness of a `_valuepred_matches_value` result. -/
theorem truthy_valuepred_matches_value (c : ValuePred) (v : Value) :
    truthy (valuepred_matches_value c v) =
      (c.isAny || predEqVal c v || (c.isCallable && truthy (applyPred c v))) := by
  rw [valuepred_matches_value_eq]
  cases c with
  | any => rfl
  | val w =>
      cases h : predEqVal (.val w) v <;>
        simp [ValuePred.isAny, ValuePred.isCallable, truthy, h]
  | callable i f =>
      cases h : predEqVal (.callable i f) v <;>
        simp [ValuePred.isAny, ValuePred.isCallable, truthy, h]

/-- A bool-valued criterion yields a boolean from `_valuepred_matches_value`,
true exactly on satisfaction. -/
theorem valuepred_matches_value_bool (c : ValuePred) (v : Value)
    (hb : c.boolValued) :
    ∃ b : Bool, valuepred_matches_value c v = Value.bool b ∧
      b = criterionSatisfied c v := by
  rw [valuepred_matches_value_eq]
  cases c with
  | any => exact ⟨true, rfl, rfl⟩
  | val w =>
      cases h : pyEq w v with
      | true =>
          exact ⟨true,
            by simp [ValuePred.isAny, ValuePred.isCallable, predEqVal, h],
            by simp [criterionSatisfied, h]⟩
      | false =>
          exact ⟨false,
            by simp [ValuePred.isAny, ValuePred.isCallable, predEqVal, h],
            by simp [criterionSatisfied, h]⟩
  | callable i f =>
      obtain ⟨b₀, hb₀⟩ := hb v
      cases h : predEqVal (.callable i f) v with
      | true =>
          exact ⟨true, by simp [ValuePred.isAny, ValuePred.isCallable, h],
            by simp [criterionSatisfied, h]⟩
      | false =>
          refine ⟨b₀, by simp [ValuePred.isAny, ValuePred.isCallable, h, applyPred, hb₀], ?_⟩
          simp [criterionSatisfied, h, hb₀, truthy]

/-- `matches` over bool-valued criteria returns a boolean that is the
conjunction of the five satisfaction results. -/
theorem matches_bool (e : Event) (cs ct cd ce cv : ValuePred)
    (hs : cs.boolValued) (ht : ct.boolValued) (hd : cd.boolValued)
    (he : ce.boolValued) (hv : cv.boolValued) :
    Event.matches e cs ct cd ce cv =
      Value.bool (criterionSatisfied ce e.ev && criterionSatisfied ct e.time &&
        criterionSatisfied cv e.val && criterionSatisfied cd e.dura &&
        criterionSatisfied cs e.seq) := by
  obtain ⟨b₁, hb₁, hc₁⟩ := valuepred_matches_value_bool ce e.ev he
  obtain ⟨b₂, hb₂, hc₂⟩ := valuepred_matches_value_bool ct e.time ht
  obtain ⟨b₃, hb₃, hc₃⟩ := valuepred_matches_value_bool cv e.val hv
  obtain ⟨b₄, hb₄, hc₄⟩ := valuepred_matches_value_bool cd e.dura hd
  obtain ⟨b₅, hb₅, hc₅⟩ := valuepred_matches_value_bool cs e.seq hs
  unfold Event.matches
  rw [hb₁, hb₂, hb₃, hb₄, hb₅, pyAnd_bool, pyAnd_bool, pyAnd_bool, pyAnd_bool,
    hc₁, hc₂, hc₃, hc₄, hc₅]

theorem ordThen_eq (p : Ordering) : Ordering.eq.then p = p := rfl

theorem ordThen_ne (o p : Ordering) (h : o ≠ .eq) : o.then p = o := by
  cases o with
  | lt => rfl
  | eq => exact absurd rfl h
  | gt => rfl

theorem lastIdx_eq_none (l : List String) (k : String) (h : ¬ k ∈ l) :
    lastIdx l k = Option.none := by
  cases hx : lastIdx l k with
  | none => rfl
  | some i => exact absurd (List.get?_mem (lastIdx_get l k i hx)) h

theorem pyTupleGet_nat {α : Type} (l : List α) (i : Nat) (hi : i < l.length) :
    pyTupleGet l (i : Int) = .ok (l.get ⟨i, hi⟩) := by
  simp only [pyTupleGet]
  rw [if_neg (not_lt.mpr (Int.natCast_nonneg i)),
    if_neg (not_lt.mpr (Int.natCast_nonneg i)), Int.toNat_natCast,
    List.get?_eq_get hi]

theorem pyTupleGet_neg {α : Type} (l : List α) (i : Int) (hneg : i < 0)
    (hge : -(l.length : Int) ≤ i) :
    ∃ (h : (i + l.length).toNat < l.length),
      pyTupleGet l i = .ok (l.get ⟨(i + l.length).toNat, h⟩) := by
  have h : (i + l.length).toNat < l.length := by omega
  refine ⟨h, ?_⟩
  simp only [pyTupleGet]
  rw [if_pos hneg, if_neg (by omega : ¬ i + (l.length : Int) < 0),
    List.get?_eq_get h]

theorem pyTupleGet_oob {α : Type} (l : List α) (i : Int)
    (h : i < -(l.length : Int) ∨ (l.length : Int) ≤ i) :
    pyTupleGet l i = .error .indexError := by
  simp only [pyTupleGet]
  rcases h with h | h
  · rw [if_pos (by omega : i < 0), if_pos (by omega : i + (l.length : Int) < 0)]
  · rw [if_neg (by omega : ¬ i < 0), if_neg (by omega : ¬ i < 0),
      List.get?_eq_none.mpr (by omega : l.length ≤ i.toNat)]

/-- C10: in `matches` each criterion is classified by probing, with equality
tested before invocation: a criterion yields a truthy result iff it is the
wildcard, or it equals the field value by Python equality (so a callable
criterion equal to the field value satisfies the match with result `True`,
its function never being applied), or, only if it is callable, its
application to the field value is truthy; and `matches` is truthy exactly
when all five criteria are, evaluated on the corresponding fields. -/
theorem matches_probing (c : ValuePred) (v : Value) (e : Event)
    (cs ct cd ce cv : ValuePred) :
    (valuepred_matches_value c v =
      if c.isAny then Value.bool true
      else if predEqVal c v then Value.bool true
      else if c.isCallable then applyPred c v
      else Value.bool false) ∧
    (truthy (valuepred_matches_value c v) =
      (c.isAny || predEqVal c v || (c.isCallable && truthy (applyPred c v)))) ∧
    (truthy (Event.matches e cs ct cd ce cv) =
      (truthy (valuepred_matches_value ce e.ev) &&
       truthy (valuepred_matches_value ct e.time) &&
       truthy (valuepred_matches_value cv e.val) &&
       truthy (valuepred_matches_value cd e.dura) &&
       truthy (valuepred_matches_value cs e.seq))) := by
  refine ⟨valuepred_matches_value_eq c v, truthy_valuepred_matches_value c v, ?_⟩
  unfold Event.matches
  rw [truthy_pyAnd, truthy_pyAnd, truthy_pyAnd, truthy_pyAnd]

/-- C9 counterexample: a predicate criterion returning the integer 42 makes
`matches` return 42 itself (the raw result of the Python `and`-chain), which
is not a boolean, against the claim that `matches` always returns a
boolean. -/
theorem matches_nonbool_cex :
    Event.matches ⟨.none, .none, .none, .none, .none⟩
      (ValuePred.callable 0 (fun _ => Value.int 42))
      ValuePred.any ValuePred.any ValuePred.any ValuePred.any = Value.int 42 ∧
    ∀ b : Bool, Value.int 42 ≠ Value.bool b := by
  exact ⟨rfl, by decide⟩

/-- C9 (amended): `matches` returns a boolean whenever every supplied
predicate criterion is boolean-valued — in particular whenever only
wildcards and plain values are supplied; a predicate returning a non-boolean
truthy or falsy value can surface as the return value of `matches`. -/
theorem matches_returns_bool (e : Event) (cs ct cd ce cv : ValuePred)
    (hbs : cs.boolValued) (hbt : ct.boolValued) (hbd : cd.boolValued)
    (hbe : ce.boolValued) (hbv : cv.boolValued) :
    ∃ b : Bool, Event.matches e cs ct cd ce cv = Value.bool b :=
  ⟨_, matches_bool e cs ct cd ce cv hbs hbt hbd hbe hbv⟩

/-- C9 (amended) witness: a concrete event and criteria including a
boolean-valued predicate. -/
theorem matches_returns_bool_witness :
    (ValuePred.callable 7 gt100).boolValued ∧
    ∃ b : Bool,
      Event.matches ⟨Value.int 1, .none, .none, .str "bpSystolic", .int 120⟩
        ValuePred.any ValuePred.any ValuePred.any ValuePred.any
        (ValuePred.callable 7 gt100) = Value.bool b := by
  refine ⟨fun v => ⟨_, rfl⟩, ?_⟩
  exact matches_returns_bool _ _ _ _ _ _ trivial trivial trivial trivial
    (fun v => ⟨_, rfl⟩)

/-- C1 counterexample: with a callable stored in the `seq` field and the same
callable supplied as the `seq` criterion, `matches` returns `True` by the
equality probe even though invoking the predicate on the field value returns
`False`; so a predicate criterion is not satisfied exactly when its
invocation returns true, as the claim states. -/
theorem matches_pred_identity_cex :
    Event.matches ⟨Value.callable 0, .none, .none, .none, .none⟩
      (ValuePred.callable 0 (fun _ => Value.bool false))
      ValuePred.any ValuePred.any ValuePred.any ValuePred.any = Value.bool true ∧
    specSatisfied (ValuePred.callable 0 (fun _ => Value.bool false))
      (Value.callable 0) = false := by
  exact ⟨rfl, rfl⟩

/-- C1 (amended): for every event, and criteria in which each plain-value
criterion is a non-callable value and each predicate criterion returns
booleans, `matches` returns `True` iff every supplied criterion is satisfied
by the corresponding field, where a wildcard is always satisfied, a plain
value is satisfied iff it equals the field by value equality, and a
predicate criterion is satisfied iff it equals the field value (function
identity) or invoking it on the field value returns true; in particular,
with no criteria supplied (all wildcards) `matches` returns `True` for every
event. -/
theorem matches_iff_satisfied (e : Event) (cs ct cd ce cv : ValuePred)
    (_hps : cs.plainOk) (_hpt : ct.plainOk) (_hpd : cd.plainOk)
    (_hpe : ce.plainOk) (_hpv : cv.plainOk)
    (hbs : cs.boolValued) (hbt : ct.boolValued) (hbd : cd.boolValued)
    (hbe : ce.boolValued) (hbv : cv.boolValued) :
    (Event.matches e cs ct cd ce cv = Value.bool true ↔
      (criterionSatisfied cs e.seq ∧ criterionSatisfied ct e.time ∧
       criterionSatisfied cd e.dura ∧ criterionSatisfied ce e.ev ∧
       criterionSatisfied cv e.val)) ∧
    Event.matches e .any .any .any .any .any = Value.bool true := by
  refine ⟨?_, rfl⟩
  rw [matches_bool e cs ct cd ce cv hbs hbt hbd hbe hbv]
  simp only [Value.bool.injEq, Bool.and_eq_true]
  tauto

/-- C1 (amended) witness: the blood-pressure example event with an equality
criterion on `ev` and a predicate criterion on `val`. -/
theorem matches_iff_satisfied_witness :
    ((ValuePred.val (Value.int 1)).plainOk ∧
     (ValuePred.val (Value.str "bpSystolic")).plainOk ∧
     (ValuePred.callable 7 gt100).boolValued) ∧
    ((Event.matches ⟨Value.int 1, .none, .none, .str "bpSystolic", .int 120⟩
        (ValuePred.val (Value.int 1)) ValuePred.any ValuePred.any
        (ValuePred.val (Value.str "bpSystolic"))
        (ValuePred.callable 7 gt100) = Value.bool true ↔
      (criterionSatisfied (ValuePred.val (Value.int 1)) (Value.int 1) ∧
       criterionSatisfied ValuePred.any Value.none ∧
       criterionSatisfied ValuePred.any Value.none ∧
       criterionSatisfied (ValuePred.val (Value.str "bpSystolic"))
         (Value.str "bpSystolic") ∧
       criterionSatisfied (ValuePred.callable 7 gt100) (Value.int 120))) ∧
     Event.matches ⟨Value.int 1, .none, .none, .str "bpSystolic", .int 120⟩
       .any .any .any .any .any = Value.bool true) := by
  refine ⟨⟨trivial, trivial, fun v => ⟨_, rfl⟩⟩, ?_⟩
  exact matches_iff_satisfied ⟨Value.int 1, .none, .none, .str "bpSystolic", .int 120⟩
    (ValuePred.val (Value.int 1)) ValuePred.any ValuePred.any
    (ValuePred.val (Value.str "bpSystolic")) (ValuePred.callable 7 gt100)
    trivial trivial trivial trivial trivial
    trivial trivial trivial trivial (fun v => ⟨_, rfl⟩)

/-- C2: sort keys form a strict total order: for any two events exactly one
of key-less, key-equal, key-greater holds (with comparison antisymmetric
under swapping the arguments); events with identical field tuples produce
equal keys, and equal keys only arise from identical tuples; ties are broken
in field order seq, then time, then dura, then ev, then val; and sorting the
example list from the claim by sort key yields the stated order. -/
theorem sort_key_total (a b : Event) :
    ((Event.sort_key_cmp a b = .lt ∧ Event.sort_key_cmp a b ≠ .eq ∧
        Event.sort_key_cmp a b ≠ .gt) ∨
     (Event.sort_key_cmp a b ≠ .lt ∧ Event.sort_key_cmp a b = .eq ∧
        Event.sort_key_cmp a b ≠ .gt) ∨
     (Event.sort_key_cmp a b ≠ .lt ∧ Event.sort_key_cmp a b ≠ .eq ∧
        Event.sort_key_cmp a b = .gt)) ∧
    (Event.sort_key_cmp b a = (Event.sort_key_cmp a b).swap) ∧
    (Event.sort_key_cmp a b = .eq ↔ a = b) ∧
    (a.seq ≠ b.seq → Event.sort_key_cmp a b = valueCmp a.seq b.seq) ∧
    (a.seq = b.seq → a.time ≠ b.time →
      Event.sort_key_cmp a b = valueCmp a.time b.time) ∧
    (a.seq = b.seq → a.time = b.time → a.dura ≠ b.dura →
      Event.sort_key_cmp a b = valueCmp a.dura b.dura) ∧
    (a.seq = b.seq → a.time = b.time → a.dura = b.dura → a.ev ≠ b.ev →
      Event.sort_key_cmp a b = valueCmp a.ev b.ev) ∧
    (a.seq = b.seq → a.time = b.time → a.dura = b.dura → a.ev = b.ev →
      Event.sort_key_cmp a b = valueCmp a.val b.val) ∧
    sortEvents
      [⟨.int 2, .int 5, .none, .none, .none⟩,
       ⟨.int 1, .int 9, .none, .none, .none⟩,
       ⟨.int 1, .int 3, .none, .none, .none⟩] =
      [⟨.int 1, .int 3, .none, .none, .none⟩,
       ⟨.int 1, .int 9, .none, .none, .none⟩,
       ⟨.int 2, .int 5, .none, .none, .none⟩] := by
  have hveq : ∀ v : Value, valueCmp v v = .eq := fun v => (valueCmp_eq_iff v v).mpr rfl
  have hvne : ∀ v w : Value, v ≠ w → valueCmp v w ≠ .eq := by
    intro v w hne h
    exact hne ((valueCmp_eq_iff v w).mp h)
  refine ⟨?_, sort_key_cmp_swap a b, sort_key_cmp_eq_iff a b, ?_, ?_, ?_, ?_, ?_, by decide⟩
  · cases h : Event.sort_key_cmp a b with
    | lt => exact Or.inl ⟨rfl, by simp, by simp⟩
    | eq => exact Or.inr (Or.inl ⟨by simp, rfl, by simp⟩)
    | gt => exact Or.inr (Or.inr ⟨by simp, by simp, rfl⟩)
  · intro hne
    unfold Event.sort_key_cmp
    exact ordThen_ne _ _ (hvne _ _ hne)
  · intro hseq hne
    unfold Event.sort_key_cmp
    rw [hseq, hveq, ordThen_eq, ordThen_ne _ _ (hvne _ _ hne)]
  · intro hseq htime hne
    unfold Event.sort_key_cmp
    rw [hseq, htime, hveq, hveq, ordThen_eq, ordThen_eq,
      ordThen_ne _ _ (hvne _ _ hne)]
  · intro hseq htime hdura hne
    unfold Event.sort_key_cmp
    rw [hseq, htime, hdura, hveq, hveq, hveq, ordThen_eq, ordThen_eq,
      ordThen_eq, ordThen_ne _ _ (hvne _ _ hne)]
  · intro hseq htime hdura hev
    unfold Event.sort_key_cmp
    rw [hseq, htime, hdura, hev, hveq, hveq, hveq, hveq, ordThen_eq,
      ordThen_eq, ordThen_eq, ordThen_eq]

/-- C2 witness: the time field breaks the tie between two events with equal
sequence ids, evaluated at Event(seq=1, time=9) and Event(seq=1, time=3). -/
theorem sort_key_total_witness :
    ((Event.mk (.int 1) (.int 9) .none .none .none).seq =
       (Event.mk (.int 1) (.int 3) .none .none .none).seq) ∧
    ((Event.mk (.int 1) (.int 9) .none .none .none).time ≠
       (Event.mk (.int 1) (.int 3) .none .none .none).time) ∧
    Event.sort_key_cmp (Event.mk (.int 1) (.int 9) .none .none .none)
      (Event.mk (.int 1) (.int 3) .none .none .none) =
      valueCmp (Value.int 9) (Value.int 3) :=
  ⟨by decide, by decide,
    (sort_key_total (Event.mk (.int 1) (.int 9) .none .none .none)
      (Event.mk (.int 1) (.int 3) .none .none .none)).2.2.2.2.1
      (by decide) (by decide)⟩

/-- C3: for a header built from distinct names, every valid index round
trips through its name (resolve(name_of(i)) = i and index_of(name_of(i)) =
i), and every name in the header round trips through its index
(name_of(index_of(name)) = name). -/
theorem header_round_trip (names : List String) (hnd : names.Nodup) :
    (∀ i : Nat, ∀ hi : i < names.length,
      (Header.ofNames names).name_of (i : Int) = .ok (names.get ⟨i, hi⟩) ∧
      (Header.ofNames names).getitem (Key.str (names.get ⟨i, hi⟩)) = .ok (i : Int) ∧
      (Header.ofNames names).index_of (names.get ⟨i, hi⟩) = .ok i) ∧
    (∀ s, s ∈ names →
      ∃ i : Nat, (Header.ofNames names).index_of s = .ok i ∧
        (Header.ofNames names).name_of (i : Int) = .ok s) := by
  constructor
  · intro i hi
    have hget : names.get? i = some (names.get ⟨i, hi⟩) := List.get?_eq_get hi
    have hlast : lastIdx names (names.get ⟨i, hi⟩) = some i :=
      lastIdx_nodup names _ i hnd hget
    refine ⟨pyTupleGet_nat names i hi, ?_, ?_⟩
    · show (match dictGet (mkDict names) (names.get ⟨i, hi⟩) with
        | some j => Except.ok (j : Int)
        | Option.none => Except.error Err.keyError) = Except.ok (i : Int)
      rw [mkDict_get, hlast]
    · show (match dictGet (mkDict names) (names.get ⟨i, hi⟩) with
        | some j => Except.ok j
        | Option.none => Except.error Err.keyError) = Except.ok i
      rw [mkDict_get, hlast]
  · intro s hs
    obtain ⟨i, hi⟩ := lastIdx_mem names s hs
    have hget : names.get? i = some s := lastIdx_get names s i hi
    have hlen : i < names.length := by
      by_contra hge
      rw [List.get?_eq_none.mpr (Nat.le_of_not_lt hge)] at hget
      cases hget
    have hgi : names.get ⟨i, hlen⟩ = s := by
      have := List.get?_eq_get hlen
      rw [hget] at this
      exact (Option.some.inj this).symm
    refine ⟨i, ?_, ?_⟩
    · show (match dictGet (mkDict names) s with
        | some j => Except.ok j
        | Option.none => Except.error Err.keyError) = Except.ok i
      rw [mkDict_get, hi]
    · show pyTupleGet names (i : Int) = Except.ok s
      rw [pyTupleGet_nat names i hlen, hgi]

/-- C3 witness: the round trips at the two-name header of a, b. -/
theorem header_round_trip_witness :
    (["a", "b"] : List String).Nodup ∧
    ((Header.ofNames ["a", "b"]).name_of ((1 : Nat) : Int) = .ok "b" ∧
     (Header.ofNames ["a", "b"]).getitem (Key.str "b") = .ok ((1 : Nat) : Int) ∧
     (Header.ofNames ["a", "b"]).index_of "b" = .ok 1) ∧
    ∃ i : Nat, (Header.ofNames ["a", "b"]).index_of "a" = .ok i ∧
      (Header.ofNames ["a", "b"]).name_of (i : Int) = .ok "a" := by
  refine ⟨by decide, ?_, ?_⟩
  · exact (header_round_trip ["a", "b"] (by decide)).1 1 (by decide)
  · exact (header_round_trip ["a", "b"] (by decide)).2 "a" (by decide)

/-- C4: resolve on an integer key succeeds returning the key exactly on
indices in range, failing with IndexError otherwise, in particular at N and
-1; a string key returns the mapped index when present and fails with
KeyError when absent; any other key type fails with KeyError. -/
theorem header_resolve (names : List String) :
    (∀ k : Int, 0 ≤ k → k < (names.length : Int) →
       (Header.ofNames names).getitem (Key.int k) = .ok k) ∧
    (∀ k : Int, k < 0 ∨ (names.length : Int) ≤ k →
       (Header.ofNames names).getitem (Key.int k) = .error .indexError) ∧
    (Header.ofNames names).getitem (Key.int (names.length : Int)) =
      .error .indexError ∧
    (Header.ofNames names).getitem (Key.int (-1)) = .error .indexError ∧
    (∀ s, s ∈ names → ∃ i : Nat,
       (Header.ofNames names).getitem (Key.str s) = .ok (i : Int) ∧
       names.get? i = some s) ∧
    (∀ s, ¬ s ∈ names →
       (Header.ofNames names).getitem (Key.str s) = .error .keyError) ∧
    (Header.ofNames names).getitem Key.other = .error .keyError := by
  have hint : ∀ k : Int, k < 0 ∨ (names.length : Int) ≤ k →
      (Header.ofNames names).getitem (Key.int k) = .error .indexError := by
    intro k hk
    show (if k < 0 ∨ k ≥ (names.length : Int) then Except.error Err.indexError
      else Except.ok k) = Except.error Err.indexError
    rw [if_pos (by omega)]
  refine ⟨?_, hint, hint _ (Or.inr le_rfl), hint _ (Or.inl (by omega)), ?_, ?_, rfl⟩
  · intro k hk0 hklen
    show (if k < 0 ∨ k ≥ (names.length : Int) then Except.error Err.indexError
      else Except.ok k) = Except.ok k
    rw [if_neg (by omega)]
  · intro s hs
    obtain ⟨i, hi⟩ := lastIdx_mem names s hs
    refine ⟨i, ?_, lastIdx_get names s i hi⟩
    show (match dictGet (mkDict names) s with
      | some j => Except.ok (j : Int)
      | Option.none => Except.error Err.keyError) = Except.ok (i : Int)
    rw [mkDict_get, hi]
  · intro s hs
    show (match dictGet (mkDict names) s with
      | some j => Except.ok (j : Int)
      | Option.none => Except.error Err.keyError) = Except.error Err.keyError
    rw [mkDict_get, lastIdx_eq_none names s hs]

/-- C4 witness: the resolve behaviours at the two-name header of a, b. -/
theorem header_resolve_witness :
    ((0 : Int) ≤ 1 ∧ (1 : Int) < ((["a", "b"] : List String).length : Int) ∧
      (Header.ofNames ["a", "b"]).getitem (Key.int 1) = .ok 1) ∧
    ((-3 : Int) < 0 ∨ ((["a", "b"] : List String).length : Int) ≤ -3) ∧
    (Header.ofNames ["a", "b"]).getitem (Key.int (-3)) = .error .indexError ∧
    ("b" ∈ (["a", "b"] : List String) ∧ ∃ i : Nat,
      (Header.ofNames ["a", "b"]).getitem (Key.str "b") = .ok (i : Int) ∧
      (["a", "b"] : List String).get? i = some "b") ∧
    (¬ "zzz" ∈ (["a", "b"] : List String) ∧
      (Header.ofNames ["a", "b"]).getitem (Key.str "zzz") = .error .keyError) := by
  refine ⟨⟨by decide, by decide, ?_⟩, Or.inl (by decide), ?_, ⟨by decide, ?_⟩,
    ⟨by decide, ?_⟩⟩
  · exact (header_resolve ["a", "b"]).1 1 (by decide) (by decide)
  · exact (header_resolve ["a", "b"]).2.1 (-3) (Or.inl (by decide))
  · exact (header_resolve ["a", "b"]).2.2.2.2.1 "b" (by decide)
  · exact (header_resolve ["a", "b"]).2.2.2.2.2.1 "zzz" (by decide)

/-- C5 counterexample: for the header of names a, b the access name_of(-1)
does not fail with IndexError as the claim states: native tuple indexing
wraps the negative index and returns the last name. -/
theorem name_of_negative_cex :
    (Header.ofNames ["a", "b"]).name_of (-1) = .ok "b" ∧
    (Header.ofNames ["a", "b"]).name_of (-1) ≠ .error .indexError := by
  refine ⟨rfl, fun h => ?_⟩
  exact Except.noConfusion h

/-- C5 (amended): name_of follows native tuple indexing: an index in [0, N)
returns the name at that position, an index in [-N, 0) returns the name at
position N + index, and an index outside [-N, N) fails with IndexError. -/
theorem name_of_range (names : List String) (i : Int) :
    (0 ≤ i → i < (names.length : Int) →
      ∃ s, (Header.ofNames names).name_of i = .ok s ∧
        names.get? i.toNat = some s) ∧
    (-(names.length : Int) ≤ i → i < 0 →
      ∃ s, (Header.ofNames names).name_of i = .ok s ∧
        names.get? (i + names.length).toNat = some s) ∧
    ((i < -(names.length : Int) ∨ (names.length : Int) ≤ i) →
      (Header.ofNames names).name_of i = .error .indexError) := by
  refine ⟨?_, ?_, fun h => pyTupleGet_oob names i h⟩
  · intro h0 hlen
    have hlt : i.toNat < names.length := by omega
    have hcast : ((i.toNat : Nat) : Int) = i := Int.toNat_of_nonneg h0
    refine ⟨names.get ⟨i.toNat, hlt⟩, ?_, List.get?_eq_get hlt⟩
    have hp := pyTupleGet_nat names i.toNat hlt
    rw [hcast] at hp
    exact hp
  · intro hge hneg
    obtain ⟨h, hp⟩ := pyTupleGet_neg names i hneg hge
    exact ⟨names.get ⟨(i + names.length).toNat, h⟩, hp, List.get?_eq_get h⟩

/-- C5 (amended) witness: the three behaviours at the header of a, b. -/
theorem name_of_range_witness :
    ((0 : Int) ≤ 1 ∧ (1 : Int) < ((["a", "b"] : List String).length : Int) ∧
      ∃ s, (Header.ofNames ["a", "b"]).name_of 1 = .ok s ∧
        (["a", "b"] : List String).get? (1 : Int).toNat = some s) ∧
    (-((["a", "b"] : List String).length : Int) ≤ -2 ∧ (-2 : Int) < 0 ∧
      ∃ s, (Header.ofNames ["a", "b"]).name_of (-2) = .ok s ∧
        (["a", "b"] : List String).get? ((-2 : Int) + (["a", "b"] : List String).length).toNat = some s) ∧
    (((3 : Int) < -((["a", "b"] : List String).length : Int) ∨
        ((["a", "b"] : List String).length : Int) ≤ 3) ∧
      (Header.ofNames ["a", "b"]).name_of 3 = .error .indexError) := by
  refine ⟨⟨by decide, by decide, ?_⟩, ⟨by decide, by decide, ?_⟩,
    ⟨Or.inr (by decide), ?_⟩⟩
  · exact (name_of_range ["a", "b"] 1).1 (by decide) (by decide)
  · exact (name_of_range ["a", "b"] (-2)).2.1 (by decide) (by decide)
  · exact (name_of_range ["a", "b"] 3).2.2 (Or.inr (by decide))

/-- C6 counterexample: positional access at -1 does not fail with IndexError
as the claim states: native tuple indexing wraps the negative index and
returns the last field. -/
theorem event_get_negative_cex :
    Event.getitem ⟨.int 1, .int 2, .int 3, .int 4, .int 5⟩ (Key.int (-1)) =
      .ok (Value.int 5) ∧
    Event.getitem ⟨.int 1, .int 2, .int 3, .int 4, .int 5⟩ (Key.int (-1)) ≠
      .error .indexError := by
  refine ⟨rfl, fun h => ?_⟩
  exact Except.noConfusion h

/-- C6 (amended): positional access follows native tuple indexing on the
5-tuple: keys 0..4 return the fields seq, time, dura, ev, val in order,
keys -1..-5 return the fields counted from the end, and any integer key
outside [-5, 5) fails with IndexError. -/
theorem event_get_int_range (e : Event) :
    Event.getitem e (Key.int 0) = .ok e.seq ∧
    Event.getitem e (Key.int 1) = .ok e.time ∧
    Event.getitem e (Key.int 2) = .ok e.dura ∧
    Event.getitem e (Key.int 3) = .ok e.ev ∧
    Event.getitem e (Key.int 4) = .ok e.val ∧
    Event.getitem e (Key.int (-1)) = .ok e.val ∧
    Event.getitem e (Key.int (-2)) = .ok e.ev ∧
    Event.getitem e (Key.int (-3)) = .ok e.dura ∧
    Event.getitem e (Key.int (-4)) = .ok e.time ∧
    Event.getitem e (Key.int (-5)) = .ok e.seq ∧
    (∀ i : Int, i < -5 ∨ 5 ≤ i →
      Event.getitem e (Key.int i) = .error .indexError) := by
  refine ⟨rfl, rfl, rfl, rfl, rfl, rfl, rfl, rfl, rfl, rfl, ?_⟩
  intro i hi
  show pyTupleGet e.toList i = .error .indexError
  apply pyTupleGet_oob
  have hl : e.toList.length = 5 := rfl
  rw [hl]
  omega

/-- C6 (amended) witness: out-of-range access at 7 on a concrete event. -/
theorem event_get_int_range_witness :
    ((7 : Int) < -5 ∨ (5 : Int) ≤ 7) ∧
    Event.getitem ⟨.int 1, .int 2, .int 3, .int 4, .int 5⟩ (Key.int 7) =
      .error .indexError :=
  ⟨Or.inr (by decide),
    (event_get_int_range ⟨.int 1, .int 2, .int 3, .int 4, .int 5⟩
      ).2.2.2.2.2.2.2.2.2.2 7 (Or.inr (by decide))⟩

/-- C7: for every event and each of the five field names, access by name,
access by attribute, and access by the index the shared header resolves the
name to all agree on the same field value. -/
theorem field_access_equiv (e : Event) (f : String)
    (hf : f ∈ _EVENT_FIELD_NAMES) :
    ∃ v, ∃ i : Nat, Event.attribute e f = some v ∧
      Event.getitem e (Key.str f) = .ok v ∧
      Event.header.index_of f = .ok i ∧
      Event.getitem e (Key.int (i : Int)) = .ok v := by
  simp only [_EVENT_FIELD_NAMES, List.mem_cons, List.mem_singleton,
    List.not_mem_nil, or_false] at hf
  rcases hf with rfl | rfl | rfl | rfl | rfl
  · exact ⟨e.seq, 0, rfl, rfl, rfl, rfl⟩
  · exact ⟨e.time, 1, rfl, rfl, rfl, rfl⟩
  · exact ⟨e.dura, 2, rfl, rfl, rfl, rfl⟩
  · exact ⟨e.ev, 3, rfl, rfl, rfl, rfl⟩
  · exact ⟨e.val, 4, rfl, rfl, rfl, rfl⟩

/-- C7 witness: the three access paths agree on the time field of a concrete
event. -/
theorem field_access_equiv_witness :
    "time" ∈ _EVENT_FIELD_NAMES ∧
    ∃ v, ∃ i : Nat,
      Event.attribute ⟨.int 1, .str "x", .none, .none, .none⟩ "time" = some v ∧
      Event.getitem ⟨.int 1, .str "x", .none, .none, .none⟩ (Key.str "time") = .ok v ∧
      Event.header.index_of "time" = .ok i ∧
      Event.getitem ⟨.int 1, .str "x", .none, .none, .none⟩ (Key.int (i : Int)) = .ok v :=
  ⟨by decide,
    field_access_equiv ⟨.int 1, .str "x", .none, .none, .none⟩ "time" (by decide)⟩

/-- C8: header construction performs no uniqueness validation: a repeated
name resolves to the largest index at which it occurs (last write wins in
the name-to-index dict), while name_of still returns exactly the name at
each valid position. -/
theorem header_duplicate_last_wins (names : List String) (name : String)
    (hm : name ∈ names) :
    ∃ i : Nat, (Header.ofNames names).index_of name = .ok i ∧
      names.get? i = some name ∧
      (∀ j, names.get? j = some name → j ≤ i) ∧
      (∀ k : Nat, ∀ hk : k < names.length,
        (Header.ofNames names).name_of (k : Int) = .ok (names.get ⟨k, hk⟩)) := by
  obtain ⟨i, hi⟩ := lastIdx_mem names name hm
  refine ⟨i, ?_, lastIdx_get names name i hi, lastIdx_maximal names name i hi, ?_⟩
  · show (match dictGet (mkDict names) name with
      | some j => Except.ok j
      | Option.none => Except.error Err.keyError) = Except.ok i
    rw [mkDict_get, hi]
  · intro k hk
    exact pyTupleGet_nat names k hk

/-- C8 witness: the duplicated name a in the header of a, b, a resolves to
its last index. -/
theorem header_duplicate_last_wins_witness :
    "a" ∈ (["a", "b", "a"] : List String) ∧
    ∃ i : Nat, (Header.ofNames ["a", "b", "a"]).index_of "a" = .ok i ∧
      (["a", "b", "a"] : List String).get? i = some "a" ∧
      (∀ j, (["a", "b", "a"] : List String).get? j = some "a" → j ≤ i) ∧
      (∀ k : Nat, ∀ hk : k < (["a", "b", "a"] : List String).length,
        (Header.ofNames ["a", "b", "a"]).name_of (k : Int) =
          .ok ((["a", "b", "a"] : List String).get ⟨k, hk⟩)) :=
  ⟨by decide, header_duplicate_last_wins ["a", "b", "a"] "a" (by decide)⟩

end Esal
